import Mathlib

/-!
Verification of the Day 20 "Jurassic Jigsaw" core (src/day20.rs) against its
specification.  The Rust data model and operations are embedded shallowly:
pixel grids are lists of lists of characters, fallible vector operations
(which panic in Rust) return Option, and the backtracking search is embedded
with an explicit fuel argument equal to the number of remaining tiles, which
is exactly the recursion depth of the source.
-/

/-- A square portion of a satellite image (struct Tile in day20.rs). -/
structure Tile where
  id : Nat
  pixels : List (List Char)
deriving DecidableEq

/-- One elementary symmetry operation (enum Transformation in day20.rs). -/
inductive Transformation where
  | Rotate90
  | Rotate180
  | Rotate270
  | FlipHorizontally
  | FlipVertically
deriving DecidableEq

/-- Coordinate mapping of a transformation (Transformation::transform). -/
def Transformation.transform : Transformation → Nat → Nat → Nat → Nat × Nat
  | .Rotate90, _x, y, length => (y, length - _x - 1)
  | .Rotate180, x, y, length => (length - x - 1, length - y - 1)
  | .Rotate270, x, y, length => (length - y - 1, length - x - 1)
  | .FlipHorizontally, x, y, length => (x, length - y - 1)
  | .FlipVertically, x, y, length => (length - x - 1, y)

/-- Read a cell of a pixel grid; Rust indexing panics out of bounds, in this
embedding out-of-range reads yield the sentinel character which never occurs
in any grid of interest. -/
def cellAt (g : List (List Char)) (r c : Nat) : Char := (g.getD r []).getD c '?'

/-- A tile viewed through an ordered list of transformations
(struct OrientedTile in day20.rs).  The deprecated eagerly-computed pixels
field is kept, exactly as in the source. -/
structure OrientedTile where
  id : Nat
  pixels : List (List Char)
  tile : Tile
  transformations : List Transformation
deriving DecidableEq

/-- OrientedTile::edge_length: the edge length of the underlying tile. -/
def OrientedTile.edgeLength (o : OrientedTile) : Nat := o.tile.pixels.length

/-- OrientedTile::translate: fold the transformation list left-to-right. -/
def OrientedTile.translate (o : OrientedTile) (x y : Nat) : Nat × Nat :=
  o.transformations.foldl
    (fun previous transformation =>
      transformation.transform previous.1 previous.2 o.edgeLength)
    (x, y)

/-- OrientedTile::item_at: translate and read the native tile. -/
def OrientedTile.itemAt (o : OrientedTile) (x y : Nat) : Char :=
  let coordinates := o.translate x y
  cellAt o.tile.pixels coordinates.1 coordinates.2

/-- OrientedTile::pixels(): the lazily computed oriented grid. -/
def OrientedTile.pixelsFn (o : OrientedTile) : List (List Char) :=
  (List.range o.edgeLength).map fun i =>
    (List.range o.edgeLength).map fun j => o.itemAt i j

/-- OrientedTile::left_border. -/
def OrientedTile.leftBorder (o : OrientedTile) : List Char :=
  (List.range o.edgeLength).map fun i => o.itemAt i 0

/-- OrientedTile::right_border. -/
def OrientedTile.rightBorder (o : OrientedTile) : List Char :=
  (List.range o.edgeLength).map fun i => o.itemAt i (o.edgeLength - 1)

/-- OrientedTile::top_border. -/
def OrientedTile.topBorder (o : OrientedTile) : List Char :=
  (List.range o.edgeLength).map fun j => o.itemAt 0 j

/-- OrientedTile::bottom_border. -/
def OrientedTile.bottomBorder (o : OrientedTile) : List Char :=
  (List.range o.edgeLength).map fun j => o.itemAt (o.edgeLength - 1) j

/-- OrientedTile::edges_match.  The Rust loop pulls one element from each
iterator per round and exits as soon as either is exhausted, then checks that
one further pull on each yields nothing; the element consumed by the failed
pattern match is therefore skipped, which this equation set reproduces. -/
def edgesMatch : List Char → List Char → Bool
  | [], [] => true
  | [], _ :: ys => ys.isEmpty
  | _ :: xs, [] => xs.isEmpty
  | x :: xs, y :: ys => x == y && edgesMatch xs ys

/-- OrientedTile::fits_to_left_of. -/
def OrientedTile.fitsToLeftOf (o rightCandidate : OrientedTile) : Bool :=
  edgesMatch rightCandidate.leftBorder o.rightBorder

/-- OrientedTile::fits_above. -/
def OrientedTile.fitsAbove (o bottomCandidate : OrientedTile) : Bool :=
  edgesMatch bottomCandidate.topBorder o.bottomBorder

/-- OrientedTile::flip_horizontally: reverse each row eagerly and push the
FlipHorizontally tag. -/
def OrientedTile.flipHorizontally (o : OrientedTile) : OrientedTile :=
  { id := o.id
    pixels := o.pixels.map List.reverse
    tile := o.tile
    transformations := o.transformations ++ [Transformation.FlipHorizontally] }

/-- OrientedTile::flip_vertically: reverse the row order eagerly and push the
FlipVertically tag. -/
def OrientedTile.flipVertically (o : OrientedTile) : OrientedTile :=
  { id := o.id
    pixels := o.pixels.reverse
    tile := o.tile
    transformations := o.transformations ++ [Transformation.FlipVertically] }

/-- OrientedTile::rotate90: eager grid built column-by-column with the row
index reversed, as in the source, plus the Rotate90 tag. -/
def OrientedTile.rotate90 (o : OrientedTile) : OrientedTile :=
  { id := o.id
    pixels := (List.range o.pixels.length).map fun originalColumn =>
      ((List.range o.pixels.length).reverse).map fun originalRow =>
        cellAt o.pixels originalRow originalColumn
    tile := o.tile
    transformations := o.transformations ++ [Transformation.Rotate90] }

/-- OrientedTile::rotate180. -/
def OrientedTile.rotate180 (o : OrientedTile) : OrientedTile :=
  { id := o.id
    pixels := ((List.range o.pixels.length).reverse).map fun originalRow =>
      ((List.range o.pixels.length).reverse).map fun originalColumn =>
        cellAt o.pixels originalRow originalColumn
    tile := o.tile
    transformations := o.transformations ++ [Transformation.Rotate180] }

/-- OrientedTile::rotate270. -/
def OrientedTile.rotate270 (o : OrientedTile) : OrientedTile :=
  { id := o.id
    pixels := ((List.range o.pixels.length).reverse).map fun originalColumn =>
      (List.range o.pixels.length).map fun originalRow =>
        cellAt o.pixels originalRow originalColumn
    tile := o.tile
    transformations := o.transformations ++ [Transformation.Rotate270] }

/-- The orientation with no transformations applied (the local `original`
value built at the top of Tile::permutations). -/
def orientedOf (t : Tile) : OrientedTile :=
  { id := t.id, pixels := t.pixels, tile := t, transformations := [] }

/-- Tile::permutations, in the exact order of the source vector literal. -/
def Tile.permutations (t : Tile) : List OrientedTile :=
  let original := orientedOf t
  let r90 := original.rotate90
  [original.flipHorizontally, original.flipVertically,
   original.rotate180, original.rotate270,
   r90.flipHorizontally, r90.flipVertically,
   r90, original]

/-- Tile::roughness: the number of foreground characters in the grid. -/
def Tile.roughness (t : Tile) : Nat :=
  t.pixels.foldl (fun result row =>
    row.foldl (fun acc cell => if cell == '#' then acc + 1 else acc) result) 0

/-- Vec::remove(len-1) followed by Vec::remove(0): drops the last and the
first element; Rust panics when the vector has fewer than two elements,
modelled by none. -/
def removeLastFirst : List (List Char) → Option (List (List Char))
  | [] => none
  | [_] => none
  | x :: y :: rest => some ((x :: y :: rest).dropLast.tail)

/-- Row-level variant of removeLastFirst. -/
def removeLastFirstRow : List Char → Option (List Char)
  | [] => none
  | [_] => none
  | x :: y :: rest => some ((x :: y :: rest).dropLast.tail)

/-- Sequential traversal applying removeLastFirstRow to every row; the first
row on which the source would panic aborts the whole computation. -/
def cropRows : List (List Char) → Option (List (List Char))
  | [] => some []
  | row :: rest =>
    (removeLastFirstRow row).bind fun r =>
      (cropRows rest).map fun rs => r :: rs

/-- Tile::crop_borders: drop the last and first row, then the last and first
cell of each remaining row; any panic of the source becomes none. -/
def Tile.cropBorders (t : Tile) : Option Tile :=
  (removeLastFirst t.pixels).bind fun wideRows =>
    (cropRows wideRows).map fun cropped =>
      { id := t.id, pixels := cropped }

/-- A sample asymmetric 2-by-2 tile used as concrete input. -/
def exTile : Tile := { id := 7, pixels := [['1', '2'], ['3', '4']] }

/-- A uniform 1-by-1 foreground tile. -/
def uTile : Tile := { id := 1, pixels := [['#']] }

/-- A uniform 1-by-1 background tile. -/
def bTile : Tile := { id := 2, pixels := [['.']] }

/-- C3: the claimed round trip fails in the code.  Applying Rotate90's
coordinate mapping and then Rotate270's (its claimed algebraic inverse) to
the in-range coordinate (0,0) at edge length 2 lands on (0,1), not back on
(0,0): the implemented Rotate270 map is an anti-transposition, not the
inverse rotation. -/
theorem c3_rotate_roundtrip_fails :
    (Transformation.Rotate270.transform
      (Transformation.Rotate90.transform 0 0 2).1
      (Transformation.Rotate90.transform 0 0 2).2 2) = (0, 1) ∧
    ((0, 1) : Nat × Nat) ≠ (0, 0) := by
  constructor
  · rfl
  · decide

/-- C10: the eagerly stored pixels field and the lazily computed pixels()
grid disagree after a single rotate90 on an asymmetric tile: the eager grid
is the clockwise rotation while the transformation-list grid is the
counter-clockwise one. -/
theorem c10_eager_lazy_disagree :
    ((orientedOf exTile).rotate90).pixels = [['3', '1'], ['4', '2']] ∧
    ((orientedOf exTile).rotate90).pixelsFn = [['2', '4'], ['1', '3']] ∧
    ((orientedOf exTile).rotate90).pixels ≠
      ((orientedOf exTile).rotate90).pixelsFn := by
  refine ⟨rfl, rfl, ?_⟩
  decide

/-- C2 counterexample: for the 1-by-1 tile every one of the 8 returned
orientations has the same pixel grid, so permutations does not return 8
OrientedTiles with pairwise distinct pixel grids even though the tile's edge
length is at least 1. -/
theorem c2_counterexample :
    (uTile.permutations).length = 8 ∧
    ¬ ((uTile.permutations).map OrientedTile.pixelsFn).Nodup := by
  constructor
  · rfl
  · decide

/-- C2 amended: permutations always returns exactly 8 OrientedTiles, but
their pixel grids are never pairwise distinct: for every tile the fourth
entry (transformation list [Rotate270]) and the sixth entry (transformation
list [Rotate90, FlipVertically]) compute identical pixel grids, because the
implemented Rotate270 mapping equals FlipVertically composed after Rotate90;
symmetric tiles collapse further. -/
theorem c2_eight_with_duplicate (t : Tile) :
    (t.permutations).length = 8 ∧
    OrientedTile.pixelsFn ((t.permutations).getD 3 (orientedOf t)) =
      OrientedTile.pixelsFn ((t.permutations).getD 5 (orientedOf t)) := by
  exact ⟨rfl, rfl⟩

/-- tile_above in day20.rs: the already placed neighbor above position
`index`, absent on the first row. -/
def tileAbove (arrangement : List OrientedTile) (index edgeLength : Nat) :
    Option OrientedTile :=
  if index < edgeLength then none else arrangement.get? (index - edgeLength)

/-- tile_to_left in day20.rs: the already placed neighbor to the left of
position `index`, absent on the first column. -/
def tileToLeft (arrangement : List OrientedTile) (index edgeLength : Nat) :
    Option OrientedTile :=
  if index % edgeLength = 0 then none else arrangement.get? (index - 1)

/-- The top constraint tested inside fits: absent neighbor or matching
borders (`tile_above.is_none() || tile_above.unwrap().fits_above(..)`). -/
def topOk (above : Option OrientedTile) (orientation : OrientedTile) : Bool :=
  match above with
  | none => true
  | some a => a.fitsAbove orientation

/-- The left constraint tested inside fits. -/
def leftOk (left : Option OrientedTile) (orientation : OrientedTile) : Bool :=
  match left with
  | none => true
  | some a => a.fitsToLeftOf orientation

/-- The orientation loop of fits: return the first orientation satisfying
both constraints, none when the list is exhausted. -/
def fitsLoop (above left : Option OrientedTile) :
    List OrientedTile → Option OrientedTile
  | [] => none
  | o :: os =>
    if topOk above o && leftOk left o then some o else fitsLoop above left os

/-- fits in day20.rs: look up both neighbors of the next position and scan
the candidate's permutations for the first orientation that fits. -/
def fits (arrangement : List OrientedTile) (candidate : Tile)
    (edgeLength : Nat) : Option OrientedTile :=
  fitsLoop (tileAbove arrangement arrangement.length edgeLength)
    (tileToLeft arrangement arrangement.length edgeLength)
    candidate.permutations

/-- Each element of a list paired with the list of the remaining elements in
order: the effect of `remaining_tiles.split_at(i)` gluing in the source loop,
for i ranging over all indices. -/
def picks : List Tile → List (Tile × List Tile)
  | [] => []
  | x :: xs => (x, xs) :: (picks xs).map fun p => (p.1, x :: p.2)

/-- get_valid_arrangements with an explicit fuel argument.  The source
recursion always removes exactly one remaining tile per call, so running the
function with fuel equal to the number of remaining tiles reproduces it
exactly; the fuel-exhausted equation is unreachable under that discipline. -/
def gvaFuel : Nat → List OrientedTile → List Tile → Nat →
    List (List OrientedTile)
  | 0, placed, remaining, _ =>
    if remaining.isEmpty then [placed] else []
  | fuel + 1, placed, remaining, edgeLength =>
    if remaining.isEmpty then [placed]
    else if placed.isEmpty then
      ((picks remaining).findSome? fun pick =>
        pick.1.permutations.findSome? fun orientation =>
          let valid := gvaFuel fuel [orientation] pick.2 edgeLength
          if valid.isEmpty then none else some valid).getD []
    else
      ((picks remaining).map fun pick =>
        match fits placed pick.1 edgeLength with
        | some orientation =>
          gvaFuel fuel (placed ++ [orientation]) pick.2 edgeLength
        | none => []).flatten

/-- get_valid_arrangements in day20.rs. -/
def getValidArrangements (placed : List OrientedTile)
    (remaining : List Tile) (edgeLength : Nat) : List (List OrientedTile) :=
  gvaFuel remaining.length placed remaining edgeLength

/-- C1 counterexample: with one uniform 1-by-1 tile already placed and a
uniform candidate for position 1 of a 2-wide grid, all 8 orientations of the
candidate satisfy both border constraints, yet the search produces a single
arrangement: it recursed on only one orientation of the tile, not on every
fitting one. -/
theorem c1_counterexample :
    ((uTile.permutations).filter fun o =>
        topOk (tileAbove [orientedOf uTile] 1 2) o &&
        leftOk (tileToLeft [orientedOf uTile] 1 2) o).length = 8 ∧
    (getValidArrangements [orientedOf uTile] [uTile] 2).length = 1 := by
  constructor
  · rfl
  · rfl

/-- fitsLoop returns exactly the first element of the list satisfying both
constraints. -/
theorem fitsLoop_eq_find? (above left : Option OrientedTile)
    (l : List OrientedTile) :
    fitsLoop above left l = l.find? fun o => topOk above o && leftOk left o := by
  induction l with
  | nil => rfl
  | cons o os ih =>
    cases h : (topOk above o && leftOk left o) with
    | true => simp [fitsLoop, List.find?_cons, h]
    | false => simp [fitsLoop, List.find?_cons, h, ih]

/-- C1 amended: at every position k>0 the search tests the candidate tile's
orientations in the fixed permutation order and keeps (and recurses on) only
the first orientation whose top border matches the neighbor above at k−N (if
k≥N) and whose left border matches the neighbor at k−1 (if k mod N ≠ 0):
fits is List.find? of the fit predicate over the permutations. -/
theorem c1_fits_keeps_only_first (arrangement : List OrientedTile)
    (candidate : Tile) (edgeLength : Nat) :
    fits arrangement candidate edgeLength =
      candidate.permutations.find? fun o =>
        topOk (tileAbove arrangement arrangement.length edgeLength) o &&
        leftOk (tileToLeft arrangement arrangement.length edgeLength) o := by
  unfold fits
  exact fitsLoop_eq_find? _ _ _

/-- Inversion for List.findSome?: a successful scan exhibits a member on
which the function succeeds. -/
theorem findSome?_mem {α β : Type} (f : α → Option β) (l : List α) (b : β)
    (h : l.findSome? f = some b) : ∃ a ∈ l, f a = some b := by
  induction l with
  | nil => simp [List.findSome?] at h
  | cons x xs ih =>
    rw [List.findSome?] at h
    cases hf : f x with
    | some c =>
      simp only [hf] at h
      exact ⟨x, List.mem_cons_self x xs, by rw [hf, h]⟩
    | none =>
      simp only [hf] at h
      obtain ⟨a, ha, hfa⟩ := ih h
      exact ⟨a, List.mem_cons_of_mem x ha, hfa⟩

/-- Every pick of a tile leaves exactly one tile fewer. -/
theorem picks_length :
    ∀ (l : List Tile) (c : Tile) (r : List Tile),
      (c, r) ∈ picks l → r.length + 1 = l.length := by
  intro l
  induction l with
  | nil => intro c r h; simp [picks] at h
  | cons x xs ih =>
    intro c r h
    rw [picks] at h
    rcases List.mem_cons.mp h with h1 | h2
    · injection h1 with hc hr
      subst hr
      simp
    · rcases List.mem_map.mp h2 with ⟨p, hp, he⟩
      injection he with hc hr
      subst hr
      have := ih p.1 p.2 (by cases p; exact hp)
      simp [this]

/-- With fuel at least the number of remaining tiles, every arrangement the
search returns contains every tile. -/
theorem gvaFuel_mem_length (fuel : Nat) :
    ∀ (placed : List OrientedTile) (remaining : List Tile) (N : Nat)
      (a : List OrientedTile), remaining.length ≤ fuel →
      a ∈ gvaFuel fuel placed remaining N →
      a.length = placed.length + remaining.length := by
  induction fuel with
  | zero =>
    intro placed remaining N a hfuel ha
    rw [gvaFuel] at ha
    cases he : remaining.isEmpty with
    | true =>
      rw [he] at ha
      simp only [if_true] at ha
      have : remaining = [] := List.isEmpty_iff.mp he
      subst this
      simp at ha
      simp [ha]
    | false => rw [he] at ha; simp at ha
  | succ fuel ih =>
    intro placed remaining N a hfuel ha
    rw [gvaFuel] at ha
    cases he : remaining.isEmpty with
    | true =>
      rw [he] at ha
      simp only [if_true] at ha
      have : remaining = [] := List.isEmpty_iff.mp he
      subst this
      simp at ha
      simp [ha]
    | false =>
      rw [he] at ha
      simp only [Bool.false_eq_true, if_false] at ha
      cases hp : placed.isEmpty with
      | true =>
        rw [hp] at ha
        simp only [if_true] at ha
        have hplaced : placed = [] := List.isEmpty_iff.mp hp
        cases hfs : (picks remaining).findSome? fun pick =>
            pick.1.permutations.findSome? fun orientation =>
              let valid := gvaFuel fuel [orientation] pick.2 N
              if valid.isEmpty then none else some valid with
        | none => rw [hfs] at ha; simp at ha
        | some va =>
          rw [hfs] at ha
          simp only [Option.getD_some] at ha
          obtain ⟨pick, hpick, hinner⟩ := findSome?_mem _ _ _ hfs
          obtain ⟨o, -, hvalid⟩ := findSome?_mem _ _ _ hinner
          simp only at hvalid
          cases hie : (gvaFuel fuel [o] pick.2 N).isEmpty with
          | true => rw [if_pos (by simp [hie])] at hvalid; cases hvalid
          | false =>
            rw [if_neg (by simp [hie])] at hvalid
            obtain rfl : gvaFuel fuel [o] pick.2 N = va := Option.some.inj hvalid
            have hlen : pick.2.length + 1 = remaining.length := by
              cases pick; exact picks_length remaining _ _ hpick
            have := ih [o] pick.2 N a (by omega) ha
            simp only [List.length_singleton] at this
            simp [hplaced, this]
            omega
      | false =>
        rw [hp] at ha
        simp only [Bool.false_eq_true, if_false] at ha
        rcases List.mem_flatten.mp ha with ⟨l, hl, hal⟩
        rcases List.mem_map.mp hl with ⟨pick, hpick, rfl⟩
        have hlen : pick.2.length + 1 = remaining.length := by
          cases pick; exact picks_length remaining _ _ hpick
        cases hfit : fits placed pick.1 N with
        | none => rw [hfit] at hal; cases hal
        | some o =>
          rw [hfit] at hal
          have := ih (placed ++ [o]) pick.2 N a (by omega) hal
          simp only [List.length_append, List.length_singleton] at this
          omega

/-- C4 counterexample: four 1-by-1 tiles, one foreground and three
background, admit no complete 2-by-2 arrangement (the foreground border can
never match a background border), and the search returns the plain empty
vector: no NoArrangementFound error value exists anywhere in the code, so
the failure is exactly a silently returned empty result. -/
theorem c4_counterexample :
    getValidArrangements [] [uTile, bTile, bTile, bTile] 2 = [] := by
  rfl

/-- C4 amended: when no complete arrangement exists the search exhausts all
branches and returns the empty vector (the code has no NoArrangementFound
value; callers detect failure by emptiness).  It never returns a partial
result: every arrangement it does return contains all of the tiles, its
length being the placed-prefix length plus the number of remaining tiles. -/
theorem c4_returned_arrangements_complete (placed : List OrientedTile)
    (remaining : List Tile) (edgeLength : Nat) (a : List OrientedTile)
    (ha : a ∈ getValidArrangements placed remaining edgeLength) :
    a.length = placed.length + remaining.length :=
  gvaFuel_mem_length remaining.length placed remaining edgeLength a
    (Nat.le_refl _) ha

/-- The first orientation the search tries for a lone uniform tile. -/
def oU : OrientedTile := (orientedOf uTile).flipHorizontally

/-- C4 witness: a concrete one-tile instance on which the search succeeds,
instantiating the completeness theorem. -/
theorem c4_witness :
    ([oU] ∈ getValidArrangements [] [uTile] 1) ∧
    ([oU] : List OrientedTile).length =
      ([] : List OrientedTile).length + [uTile].length :=
  ⟨by decide, c4_returned_arrangements_complete [] [uTile] 1 [oU] (by decide)⟩

/-- C5 counterexample: four identical uniform 1-by-1 tiles with grid edge 2:
a complete arrangement is found early, yet the caller receives 6 distinct
complete arrangements, not only the first one found — the deeper recursion
levels keep exploring after the first complete arrangement. -/
theorem c5_counterexample :
    (getValidArrangements [] [uTile, uTile, uTile, uTile] 2).length ≠ 1 := by
  decide

/-- C5 amended: only the choice of the top-left tile and orientation
short-circuits (the first top-left candidate whose sub-search is nonempty
supplies the final result); at positions k>0 the search accumulates the
complete arrangements of every remaining-tile choice instead of stopping at
the first, so the caller can receive several complete arrangements: four
identical uniform 1-by-1 tiles with grid edge 2 yield exactly the 6 orders
of the three non-top-left tiles. -/
theorem c5_six_arrangements :
    (getValidArrangements [] [uTile, uTile, uTile, uTile] 2).length = 6 := by
  rfl

/-- Reading through List.tail shifts the index by one. -/
theorem getD_tail {α : Type} (l : List α) (n : Nat) (d : α) :
    l.tail.getD n d = l.getD (n + 1) d := by
  cases l with
  | nil => rfl
  | cons x xs => rfl

/-- Reading through List.dropLast agrees with the original list strictly
before the last position. -/
theorem getD_dropLast {α : Type} (l : List α) (n : Nat) (d : α)
    (h : n + 1 < l.length) : l.dropLast.getD n d = l.getD n d := by
  have h1 : n < l.dropLast.length := by
    rw [List.length_dropLast]; omega
  have h2 : n < l.length := by omega
  rw [List.getD_eq_getElem?_getD, List.getD_eq_getElem?_getD,
    List.getElem?_eq_getElem h1, List.getElem?_eq_getElem h2]
  simp [List.getElem_dropLast]

/-- Reading through List.map. -/
theorem getD_map {α β : Type} (f : α → β) (l : List α) (n : Nat)
    (d : β) (d0 : α) (h : n < l.length) :
    (l.map f).getD n d = f (l.getD n d0) := by
  have h1 : n < (l.map f).length := by simp [h]
  rw [List.getD_eq_getElem?_getD, List.getD_eq_getElem?_getD,
    List.getElem?_eq_getElem h1, List.getElem?_eq_getElem h]
  simp

/-- The tile invariant of one puzzle instance: a square grid of the given
edge length. -/
def squareOfSize (L : Nat) (t : Tile) : Prop :=
  t.pixels.length = L ∧ ∀ row ∈ t.pixels, row.length = L

instance (L : Nat) (t : Tile) : Decidable (squareOfSize L t) := by
  unfold squareOfSize; infer_instance

/-- On a row of length at least two, the double removal succeeds and is
dropLast followed by tail. -/
theorem removeLastFirstRow_eq_some (l : List Char) (h : 2 ≤ l.length) :
    removeLastFirstRow l = some (l.dropLast.tail) := by
  match l with
  | [] => simp at h
  | [_] => simp at h
  | x :: y :: rest => rfl

/-- On a grid of at least two rows, the double removal succeeds and is
dropLast followed by tail. -/
theorem removeLastFirst_eq_some (l : List (List Char)) (h : 2 ≤ l.length) :
    removeLastFirst l = some (l.dropLast.tail) := by
  match l with
  | [] => simp at h
  | [_] => simp at h
  | x :: y :: rest => rfl

/-- When every row is long enough, cropRows succeeds and crops each row. -/
theorem cropRows_eq_some (l : List (List Char))
    (h : ∀ r ∈ l, 2 ≤ r.length) :
    cropRows l = some (l.map fun r => r.dropLast.tail) := by
  induction l with
  | nil => rfl
  | cons row rest ih =>
    rw [cropRows, removeLastFirstRow_eq_some row (h row (by simp)),
      ih (fun r hr => h r (List.mem_cons_of_mem _ hr))]
    rfl

/-- Members of dropLast and tail are members of the original list. -/
theorem mem_of_mem_dropLast_tail {α : Type} (l : List α) (x : α)
    (h : x ∈ l.dropLast.tail) : x ∈ l := by
  have h1 : x ∈ l.dropLast := l.dropLast.tail_sublist.mem h
  exact l.dropLast_sublist.mem h1

/-- On a square tile of edge at least two, crop_borders succeeds and removes
exactly the outer ring. -/
theorem cropBorders_eq_some (t : Tile) (L : Nat) (hs : squareOfSize L t)
    (h2 : 2 ≤ L) :
    t.cropBorders = some
      { id := t.id,
        pixels := (t.pixels.dropLast.tail).map fun r => r.dropLast.tail } := by
  obtain ⟨hlen, hrows⟩ := hs
  rw [Tile.cropBorders, removeLastFirst_eq_some t.pixels (by omega)]
  rw [Option.some_bind]
  rw [cropRows_eq_some _ (fun r hr => by
    rw [hrows r (mem_of_mem_dropLast_tail _ _ hr)]; omega)]
  rfl

/-- C9 counterexample: for a 2-by-2 tile (edge length 2 < 3) crop_borders
does not signal any failure — no CropTooSmall value exists in the code — and
returns a zero-row grid; for a 1-by-1 tile it panics (Vec::remove on an
empty vector), modelled by none, rather than signalling CropTooSmall. -/
theorem c9_counterexample :
    Tile.cropBorders { id := 0, pixels := [['a', 'b'], ['c', 'd']] } =
      some { id := 0, pixels := [] } ∧
    Tile.cropBorders { id := 0, pixels := [['x']] } = none := by
  constructor
  · rfl
  · rfl

/-- C9 amended: crop_borders has no error channel.  On a square tile it
returns a grid exactly when the edge length is at least 2 (the result is the
empty grid at edge length 2, silently violating the L ≥ 3 precondition), and
for edge length at most 1 the underlying Vec::remove panics (none in this
embedding); no CropTooSmall failure is ever signalled. -/
theorem c9_crop_succeeds_iff (t : Tile) (L : Nat) (hs : squareOfSize L t) :
    (t.cropBorders).isSome ↔ 2 ≤ L := by
  obtain ⟨hlen, hrows⟩ := hs
  constructor
  · intro h
    obtain ⟨tid, px⟩ := t
    rcases px with _ | ⟨x, _ | ⟨y, rest⟩⟩
    · simp [Tile.cropBorders, removeLastFirst] at h
    · simp [Tile.cropBorders, removeLastFirst] at h
    · simp only [List.length_cons] at hlen
      omega
  · intro h
    rw [cropBorders_eq_some t L ⟨hlen, hrows⟩ h]
    rfl

/-- C9 witness: the 2-by-2 tile instantiating the amended theorem. -/
theorem c9_witness :
    squareOfSize 2 { id := 0, pixels := [['a', 'b'], ['c', 'd']] } ∧
    ((Tile.cropBorders { id := 0, pixels := [['a', 'b'], ['c', 'd']] }).isSome
      ↔ 2 ≤ 2) :=
  ⟨by decide,
   c9_crop_succeeds_iff { id := 0, pixels := [['a', 'b'], ['c', 'd']] } 2
     (by decide)⟩

/-- A mutable pixel grid under construction in combine. -/
abbrev Grid := List (List Char)

/-- One iteration of the innermost combine loop: when the global column is 0
a fresh empty row is pushed first, then the pixel is appended to the row at
`rowId`; indexing a missing row (a Rust panic) yields none. -/
def placePixel (grid : Grid) (rowId colId : Nat) (p : Char) : Option Grid :=
  let g := if colId = 0 then grid ++ [[]] else grid
  if rowId < g.length then some (g.set rowId (g.getD rowId [] ++ [p])) else none

/-- The `for (original_column, pixel) in row` loop of combine. -/
def placeRow (rowId colOffset : Nat) :
    Grid → List Char → Nat → Option Grid
  | grid, [], _ => some grid
  | grid, p :: ps, c =>
    (placePixel grid rowId (c + colOffset) p).bind fun g =>
      placeRow rowId colOffset g ps (c + 1)

/-- The `for original_row in 0..tile.pixels.len()` loop of combine. -/
def placeTile (rowOffset colOffset : Nat) :
    Grid → List (List Char) → Nat → Option Grid
  | grid, [], _ => some grid
  | grid, row :: rows, r =>
    (placeRow (r + rowOffset) colOffset grid row 0).bind fun g =>
      placeTile rowOffset colOffset g rows (r + 1)

/-- The `for (index, tile) in arrangement.iter().enumerate()` loop of
combine, with the same offset arithmetic as the source. -/
def combineAux (tilesOnEdge : Nat) : Grid → List Tile → Nat → Option Grid
  | grid, [], _ => some grid
  | grid, t :: ts, index =>
    let tileRow := index / tilesOnEdge
    let tileColumn := index % tilesOnEdge
    let rowOffset := t.pixels.length * tileRow
    let columnOffset := t.pixels.length * tileColumn
    (placeTile rowOffset columnOffset grid t.pixels 0).bind fun g =>
      combineAux tilesOnEdge g ts (index + 1)

/-- combine in day20.rs.  The edgeSize parameter only sizes capacity in the
source and has no semantic effect. -/
def combine (arrangement : List Tile) (tilesOnEdge edgeSize : Nat) :
    Option Tile :=
  (combineAux tilesOnEdge [] arrangement 0).map fun grid =>
    { id := 0, pixels := grid }

/-- Append the k-th given row to the grid row at position i + k, leaving all
other rows unchanged. -/
def appendRows : Grid → Nat → List (List Char) → Grid
  | grid, _, [] => grid
  | grid, i, row :: rows =>
    appendRows (grid.set i (grid.getD i [] ++ row)) (i + 1) rows

/-- Concatenate tile grids horizontally, starting from an accumulator. -/
def hcatAux : Grid → List Grid → Grid
  | acc, [] => acc
  | acc, g :: gs => hcatAux (appendRows acc 0 g) gs

/-- Horizontal concatenation of a nonempty list of equal-height grids. -/
def hcatG : List Grid → Grid
  | [] => []
  | g :: gs => hcatAux g gs

/-- Reading a position of a list after set. -/
theorem getD_set {α : Type} (l : List α) (i j : Nat) (a d : α) :
    (l.set i a).getD j d =
      if i = j ∧ i < l.length then a else l.getD j d := by
  by_cases hij : i = j
  · subst hij
    by_cases hi : i < l.length
    · rw [List.getD_eq_getElem?_getD, List.getElem?_set_self hi]
      simp [hi]
    · rw [List.set_eq_of_length_le (by omega)]
      simp [hi]
  · rw [List.getD_eq_getElem?_getD, List.getElem?_set_ne hij,
      ← List.getD_eq_getElem?_getD]
    simp [hij]

/-- Setting a position to the value it already holds is the identity. -/
theorem set_getD_self {α : Type} (l : List α) (i : Nat) (d : α)
    (h : i < l.length) : l.set i (l.getD i d) = l := by
  induction l generalizing i with
  | nil => simp at h
  | cons x xs ih =>
    cases i with
    | zero => rfl
    | succ i' =>
      have : i' < xs.length := by simp at h; omega
      simp only [List.set, List.getD_cons_succ, List.cons.injEq, true_and]
      exact ih i' this

/-- When the global column never hits 0, placeRow appends the pixels to the
existing row at rowId. -/
theorem placeRow_append (ps : List Char) :
    ∀ (grid : Grid) (rowId colOffset c : Nat),
      rowId < grid.length → 1 ≤ c + colOffset →
      placeRow rowId colOffset grid ps c =
        some (grid.set rowId (grid.getD rowId [] ++ ps)) := by
  induction ps with
  | nil =>
    intro grid rowId colOffset c h1 h2
    rw [placeRow, List.append_nil, set_getD_self _ _ _ h1]
  | cons p ps ih =>
    intro grid rowId colOffset c h1 h2
    rw [placeRow]
    have hc : ¬ (c + colOffset = 0) := by omega
    rw [placePixel]
    simp only [if_neg hc, if_pos h1, Option.some_bind]
    rw [ih _ rowId colOffset (c + 1) (by simp [h1]) (by omega)]
    rw [getD_set]
    rw [if_pos ⟨rfl, h1⟩, List.set_set]
    simp

/-- placePixel at global column 0 pushes a fresh row first. -/
theorem placePixel_zero (grid : Grid) (rowId : Nat) (p : Char)
    (h : rowId < grid.length + 1) :
    placePixel grid rowId 0 p =
      some ((grid ++ [[]]).set rowId ((grid ++ [[]]).getD rowId [] ++ [p])) := by
  rw [placePixel]
  simp [h]

/-- placePixel at a nonzero global column appends to an existing row. -/
theorem placePixel_pos (grid : Grid) (rowId colId : Nat) (p : Char)
    (hc : colId ≠ 0) (h : rowId < grid.length) :
    placePixel grid rowId colId p =
      some (grid.set rowId (grid.getD rowId [] ++ [p])) := by
  rw [placePixel]
  simp [hc, h]

/-- A nonempty pixel row whose global column starts at 0 creates one fresh
row at the end of the grid. -/
theorem placeRow_create (ps : List Char) (grid : Grid) (h : ps ≠ []) :
    placeRow grid.length 0 grid ps 0 = some (grid ++ [ps]) := by
  match ps with
  | [] => exact absurd rfl h
  | p :: ps' =>
    rw [placeRow]
    simp only [Nat.add_zero, Nat.zero_add]
    rw [placePixel_zero grid grid.length p (by omega)]
    rw [Option.some_bind]
    rw [List.getD_append_right _ _ _ _ (Nat.le_refl _), Nat.sub_self]
    rw [List.set_append_right _ (_ : List Char) (Nat.le_refl _), Nat.sub_self]
    simp only [List.getD_cons_zero, List.nil_append, List.set_cons_zero]
    rw [placeRow_append ps' (grid ++ [[p]]) grid.length 0 1
      (by simp) (by omega)]
    rw [List.getD_append_right _ _ _ _ (Nat.le_refl _), Nat.sub_self]
    rw [List.set_append_right _ (_ : List Char) (Nat.le_refl _), Nat.sub_self]
    simp only [List.getD_cons_zero, List.set_cons_zero]
    rfl

/-- appendRows never changes the number of grid rows. -/
theorem appendRows_length (rows : List (List Char)) :
    ∀ (grid : Grid) (i : Nat),
      (appendRows grid i rows).length = grid.length := by
  induction rows with
  | nil => intro grid i; rfl
  | cons row rest ih =>
    intro grid i
    rw [appendRows, ih]
    simp

/-- Contents of a grid after appendRows: rows in the written window are
extended, all others are untouched. -/
theorem appendRows_getD (rows : List (List Char)) :
    ∀ (grid : Grid) (i j : Nat), i + rows.length ≤ grid.length →
      (appendRows grid i rows).getD j [] =
        if i ≤ j ∧ j < i + rows.length then
          grid.getD j [] ++ rows.getD (j - i) []
        else grid.getD j [] := by
  induction rows with
  | nil =>
    intro grid i j hle
    rw [appendRows, if_neg (by simp only [List.length_nil]; omega)]
  | cons row rest ih =>
    intro grid i j hle
    simp only [List.length_cons] at hle ⊢
    rw [appendRows]
    rw [ih _ (i + 1) j (by simp only [List.length_set]; omega)]
    by_cases hj : j = i
    · subst hj
      rw [if_neg (by omega), if_pos ⟨Nat.le_refl _, by omega⟩]
      rw [getD_set, if_pos ⟨rfl, by omega⟩]
      simp
    · by_cases hwin : i + 1 ≤ j ∧ j < i + 1 + rest.length
      · rw [if_pos hwin, if_pos (by omega)]
        rw [getD_set, if_neg (by omega)]
        have hsub : j - i = (j - (i + 1)) + 1 := by omega
        rw [hsub, List.getD_cons_succ]
      · rw [if_neg hwin, if_neg (by omega)]
        rw [getD_set, if_neg (by omega)]

/-- A tile whose rows are all nonempty, placed with column offset 0 into a
grid that currently ends exactly where the tile starts, appends its rows. -/
theorem placeTile_create (rows : List (List Char)) :
    ∀ (grid : Grid) (rowOffset r : Nat),
      grid.length = rowOffset + r → (∀ row ∈ rows, row ≠ []) →
      placeTile rowOffset 0 grid rows r = some (grid ++ rows) := by
  induction rows with
  | nil => intro grid rowOffset r hlen hne; rw [placeTile]; simp
  | cons row rest ih =>
    intro grid rowOffset r hlen hne
    rw [placeTile]
    have hr : r + rowOffset = grid.length := by omega
    rw [hr, placeRow_create row grid (hne row (by simp))]
    rw [Option.some_bind]
    rw [ih (grid ++ [row]) rowOffset (r + 1) (by simp; omega)
      (fun rw hrw => hne rw (List.mem_cons_of_mem _ hrw))]
    simp

/-- A tile placed with a nonzero column offset extends the existing window
of rows in place. -/
theorem placeTile_appends (rows : List (List Char)) :
    ∀ (grid : Grid) (rowOffset colOffset r : Nat),
      1 ≤ colOffset → rowOffset + r + rows.length ≤ grid.length →
      placeTile rowOffset colOffset grid rows r =
        some (appendRows grid (r + rowOffset) rows) := by
  induction rows with
  | nil => intro grid rowOffset colOffset r hc hle; rfl
  | cons row rest ih =>
    intro grid rowOffset colOffset r hc hle
    rw [placeTile]
    rw [placeRow_append row grid (r + rowOffset) colOffset 0
      (by simp at hle ⊢; omega) (by omega)]
    rw [Option.some_bind]
    rw [ih _ rowOffset colOffset (r + 1)
      hc (by simp at hle ⊢; omega)]
    rw [appendRows]
    have : r + 1 + rowOffset = r + rowOffset + 1 := by omega
    rw [this]

/-- Reading within the taken part of a list. -/
theorem getD_take {α : Type} (l : List α) (n i : Nat) (d : α)
    (h1 : i < n) (h2 : i < l.length) :
    (l.take n).getD i d = l.getD i d := by
  have ht : i < (l.take n).length := by simp [List.length_take]; omega
  rw [List.getD_eq_getElem _ _ ht, List.getD_eq_getElem _ _ h2]
  exact List.getElem_take ..

/-- Reading within the dropped part of a list. -/
theorem getD_drop {α : Type} (l : List α) (n i : Nat) (d : α)
    (h : n + i < l.length) :
    (l.drop n).getD i d = l.getD (n + i) d := by
  have hd : i < (l.drop n).length := by simp [List.length_drop]; omega
  rw [List.getD_eq_getElem _ _ hd, List.getD_eq_getElem _ _ h]
  exact List.getElem_drop ..

/-- A getD read inside the bounds is a member. -/
theorem getD_mem {α : Type} (l : List α) (i : Nat) (d : α)
    (h : i < l.length) : l.getD i d ∈ l := by
  rw [List.getD_eq_getElem _ _ h]
  exact List.getElem_mem ..

/-- Flattening lists of one common length multiplies the length. -/
theorem flatten_uniform_length {α : Type} (M : Nat) :
    ∀ (ls : List (List α)), (∀ l ∈ ls, l.length = M) →
      ls.flatten.length = ls.length * M := by
  intro ls
  induction ls with
  | nil => intro _; simp
  | cons l rest ih =>
    intro h
    rw [List.flatten_cons, List.length_append, h l (by simp),
      ih (fun x hx => h x (List.mem_cons_of_mem _ hx))]
    simp only [List.length_cons]
    ring

/-- Indexing into a flattening of lists of one common length. -/
theorem flatten_getD_uniform {α : Type} (M : Nat) (d : α) :
    ∀ (ls : List (List α)) (s c : Nat), (∀ l ∈ ls, l.length = M) →
      s < ls.length → c < M →
      ls.flatten.getD (s * M + c) d = (ls.getD s []).getD c d := by
  intro ls
  induction ls with
  | nil => intro s c _ hs _; simp at hs
  | cons l rest ih =>
    intro s c h hs hc
    cases s with
    | zero =>
      rw [List.flatten_cons, Nat.zero_mul, Nat.zero_add]
      rw [List.getD_append _ _ _ _ (by rw [h l (by simp)]; omega)]
      rfl
    | succ s' =>
      rw [List.flatten_cons]
      have harith : (s' + 1) * M + c = l.length + (s' * M + c) := by
        rw [h l (by simp)]
        ring
      rw [harith, List.getD_append_right _ _ _ _ (by omega)]
      have : l.length + (s' * M + c) - l.length = s' * M + c := by omega
      rw [this, ih s' c (fun x hx => h x (List.mem_cons_of_mem _ hx))
        (by simp at hs; omega) hc]
      rfl

/-- appendRows at offset 0 of a full-height block extends every row. -/
theorem appendRows_zero_getD (M : Nat) (acc : Grid) (g : Grid)
    (hacc : acc.length = M) (hg : g.length = M) (j : Nat) :
    (appendRows acc 0 g).getD j [] = acc.getD j [] ++ g.getD j [] := by
  by_cases hj : j < M
  · rw [appendRows_getD g acc 0 j (by omega)]
    rw [if_pos ⟨Nat.zero_le _, by omega⟩]
    simp
  · rw [appendRows_getD g acc 0 j (by omega)]
    rw [if_neg (by omega)]
    rw [List.getD_eq_default _ _ (by omega : g.length ≤ j)]
    simp

/-- hcatAux preserves the height and concatenates rows pointwise. -/
theorem hcatAux_spec (M : Nat) :
    ∀ (gs : List Grid) (acc : Grid), acc.length = M →
      (∀ g ∈ gs, g.length = M) →
      (hcatAux acc gs).length = M ∧
      (∀ j, (hcatAux acc gs).getD j [] =
        acc.getD j [] ++ ((gs.map fun g => g.getD j []).flatten)) := by
  intro gs
  induction gs with
  | nil => intro acc hacc _; exact ⟨hacc, fun j => by simp [hcatAux]⟩
  | cons g rest ih =>
    intro acc hacc h
    rw [hcatAux]
    have hlen : (appendRows acc 0 g).length = M := by
      rw [appendRows_length]; exact hacc
    obtain ⟨ih1, ih2⟩ := ih (appendRows acc 0 g) hlen
      (fun x hx => h x (List.mem_cons_of_mem _ hx))
    refine ⟨ih1, fun j => ?_⟩
    rw [ih2 j, appendRows_zero_getD M acc g hacc (h g (by simp)) j]
    simp

/-- hcatG of a nonempty uniform-height list of grids. -/
theorem hcatG_spec (M : Nat) (gs : List Grid) (hne : gs ≠ [])
    (h : ∀ g ∈ gs, g.length = M) :
    (hcatG gs).length = M ∧
    (∀ j, (hcatG gs).getD j [] =
      (gs.map fun g => g.getD j []).flatten) := by
  match gs with
  | [] => exact absurd rfl hne
  | g :: rest =>
    rw [hcatG]
    obtain ⟨h1, h2⟩ := hcatAux_spec M rest g (h g (by simp))
      (fun x hx => h x (List.mem_cons_of_mem _ hx))
    exact ⟨h1, fun j => by rw [h2 j]; simp⟩

/-- Appending one grid on the right of hcatG is one appendRows step. -/
theorem hcatG_append_one (gs : List Grid) (g : Grid) (hne : gs ≠ []) :
    hcatG (gs ++ [g]) = appendRows (hcatG gs) 0 g := by
  have haux : ∀ (rest : List Grid) (acc : Grid),
      hcatAux acc (rest ++ [g]) = appendRows (hcatAux acc rest) 0 g := by
    intro rest
    induction rest with
    | nil => intro acc; rfl
    | cons x xs ih => intro acc; rw [List.cons_append, hcatAux, ih, hcatAux]
  match gs with
  | [] => exact absurd rfl hne
  | x :: xs => rw [List.cons_append, hcatG, hcatG, haux]

/-- Splitting the tile list splits combineAux sequentially. -/
theorem combineAux_append (N : Nat) :
    ∀ (ts1 ts2 : List Tile) (grid : Grid) (i : Nat),
      combineAux N grid (ts1 ++ ts2) i =
        (combineAux N grid ts1 i).bind fun g =>
          combineAux N g ts2 (i + ts1.length) := by
  intro ts1
  induction ts1 with
  | nil => intro ts2 grid i; simp [combineAux]
  | cons t ts1 ih =>
    intro ts2 grid i
    rw [List.cons_append, combineAux, combineAux]
    cases hpt : placeTile (t.pixels.length * (i / N))
        (t.pixels.length * (i % N)) grid t.pixels 0 with
    | none => simp
    | some g =>
      simp only [Option.some_bind]
      rw [ih]
      have : i + 1 + ts1.length = i + (ts1.length + 1) := by omega
      simp [this]

/-- placePixel commutes with a fixed untouched lower block of rows. -/
theorem placePixel_shift (grid0 g : Grid) (rowId colId : Nat) (p : Char) :
    placePixel (grid0 ++ g) (grid0.length + rowId) colId p =
      (placePixel g rowId colId p).map (grid0 ++ ·) := by
  rw [placePixel, placePixel]
  by_cases hc : colId = 0
  · simp only [if_pos hc]
    rw [List.append_assoc]
    by_cases hr : rowId < (g ++ [[]]).length
    · rw [if_pos (by simp at hr ⊢; omega), if_pos hr]
      rw [List.getD_append_right _ _ _ _ (by omega),
        Nat.add_sub_cancel_left]
      rw [List.set_append_right _ _ (by omega), Nat.add_sub_cancel_left]
      rfl
    · rw [if_neg (by simp at hr ⊢; omega), if_neg hr]
      rfl
  · simp only [if_neg hc]
    by_cases hr : rowId < g.length
    · rw [if_pos (by simp; omega), if_pos hr]
      rw [List.getD_append_right _ _ _ _ (by omega),
        Nat.add_sub_cancel_left]
      rw [List.set_append_right _ _ (by omega), Nat.add_sub_cancel_left]
      rfl
    · rw [if_neg (by simp; omega), if_neg hr]
      rfl

/-- placeRow commutes with a fixed untouched lower block of rows. -/
theorem placeRow_shift (ps : List Char) :
    ∀ (grid0 g : Grid) (rowId colOffset c : Nat),
      placeRow (grid0.length + rowId) colOffset (grid0 ++ g) ps c =
        (placeRow rowId colOffset g ps c).map (grid0 ++ ·) := by
  induction ps with
  | nil => intro grid0 g rowId colOffset c; rfl
  | cons p ps ih =>
    intro grid0 g rowId colOffset c
    rw [placeRow, placeRow, placePixel_shift]
    cases hpp : placePixel g rowId (c + colOffset) p with
    | none => rfl
    | some g' => simp only [Option.map_some, Option.some_bind]; exact ih ..

/-- placeTile commutes with a fixed untouched lower block of rows. -/
theorem placeTile_shift (rows : List (List Char)) :
    ∀ (grid0 g : Grid) (rowOffset colOffset r : Nat),
      placeTile (grid0.length + rowOffset) colOffset (grid0 ++ g) rows r =
        (placeTile rowOffset colOffset g rows r).map (grid0 ++ ·) := by
  induction rows with
  | nil => intro grid0 g rowOffset colOffset r; rfl
  | cons row rest ih =>
    intro grid0 g rowOffset colOffset r
    rw [placeTile, placeTile]
    have : r + (grid0.length + rowOffset) = grid0.length + (r + rowOffset) := by
      omega
    rw [this, placeRow_shift]
    cases hpr : placeRow (r + rowOffset) colOffset g row 0 with
    | none => rfl
    | some g' => simp only [Option.map_some, Option.some_bind]; exact ih ..

/-- combineAux commutes with a fixed untouched lower block of complete tile
rows: processing tiles from index q0*N on top of a grid of q0 complete tile
rows only ever touches the rows appended after it. -/
theorem combineAux_shift (M : Nat) :
    ∀ (ts : List Tile) (grid0 g : Grid) (N q0 idx : Nat),
      0 < N → grid0.length = M * q0 →
      (∀ t ∈ ts, t.pixels.length = M) →
      combineAux N (grid0 ++ g) ts (q0 * N + idx) =
        (combineAux N g ts idx).map (grid0 ++ ·) := by
  intro ts
  induction ts with
  | nil => intro grid0 g N q0 idx hN hg0 hts; rfl
  | cons t rest ih =>
    intro grid0 g N q0 idx hN hg0 hts
    rw [combineAux, combineAux]
    have hdiv : (q0 * N + idx) / N = q0 + idx / N := by
      have h : q0 * N + idx = idx + N * q0 := by ring
      rw [h, Nat.add_mul_div_left _ _ hN, Nat.add_comm]
    have hmod : (q0 * N + idx) % N = idx % N := by
      have h : q0 * N + idx = idx + N * q0 := by ring
      rw [h, Nat.add_mul_mod_self_left]
    have htp : t.pixels.length = M := hts t (by simp)
    rw [hdiv, hmod, htp, Nat.mul_add, ← hg0]
    rw [placeTile_shift]
    cases hpt : placeTile (M * (idx / N)) (M * (idx % N)) g t.pixels 0 with
    | none => rfl
    | some gNext =>
      simp only [Option.map_some, Option.some_bind]
      have harith : q0 * N + idx + 1 = q0 * N + (idx + 1) := by omega
      rw [harith]
      exact ih grid0 gNext N q0 (idx + 1) hN hg0
        (fun x hx => hts x (List.mem_cons_of_mem _ hx))

/-- Processing the non-initial tiles of one tile row: each tile is appended
horizontally to the block built so far. -/
theorem combineAux_block (M N : Nat) (hM : 0 < M) (hN : 0 < N) :
    ∀ (rest : List Tile) (done : List Grid), done ≠ [] →
      (∀ g ∈ done, g.length = M) →
      (∀ t ∈ rest, t.pixels.length = M) →
      done.length + rest.length ≤ N →
      combineAux N (hcatG done) rest done.length =
        some (hcatG (done ++ rest.map Tile.pixels)) := by
  intro rest
  induction rest with
  | nil => intro done hne hd hr hle; simp [combineAux]
  | cons t rest ih =>
    intro done hne hd hr hle
    rw [combineAux]
    have hs1 : 1 ≤ done.length := List.length_pos.mpr hne
    have hsN : done.length < N := by
      simp only [List.length_cons] at hle; omega
    rw [Nat.div_eq_of_lt hsN, Nat.mod_eq_of_lt hsN]
    have htp : t.pixels.length = M := hr t (by simp)
    rw [htp, Nat.mul_zero]
    have hblock := hcatG_spec M done hne hd
    rw [placeTile_appends t.pixels (hcatG done) 0 (M * done.length) 0
      (by have := Nat.mul_pos hM hs1; omega)
      (by rw [htp, hblock.1]; omega)]
    rw [Option.some_bind]
    simp only [Nat.add_zero]
    rw [← hcatG_append_one done t.pixels hne]
    have hix : done.length + 1 = (done ++ [t.pixels]).length := by simp
    rw [hix]
    rw [ih (done ++ [t.pixels]) (by simp)
      (by
        intro g hg
        rcases List.mem_append.mp hg with h1 | h2
        · exact hd g h1
        · simp at h2; rw [h2, htp])
      (fun x hx => hr x (List.mem_cons_of_mem _ hx))
      (by simp only [List.length_append, List.length_cons, List.length_nil] at hle ⊢; omega)]
    simp

/-- Full description of combineAux on k complete tile rows of uniform
M-by-M tiles starting from the empty grid. -/
theorem combineAux_main (M N : Nat) (hM : 0 < M) (hN : 0 < N) :
    ∀ (k : Nat) (cs : List Tile), cs.length = k * N →
      (∀ t ∈ cs, t.pixels.length = M ∧ ∀ row ∈ t.pixels, row.length = M) →
      ∃ g : Grid, combineAux N [] cs 0 = some g ∧
        g.length = k * M ∧
        (∀ row ∈ g, row.length = N * M) ∧
        (∀ q s r c, q < k → s < N → r < M → c < M →
          cellAt g (q * M + r) (s * M + c) =
            cellAt (cs.getD (q * N + s) { id := 0, pixels := [] }).pixels r c) := by
  intro k
  induction k with
  | zero =>
    intro cs hcs _
    have : cs = [] := List.length_eq_zero.mp (by rw [hcs]; simp)
    subst this
    refine ⟨[], rfl, by simp, by simp, ?_⟩
    intro q s r c hq _ _ _
    exact absurd hq (Nat.not_lt_zero q)
  | succ k ih =>
    intro cs hcs huni
    have hNle : N ≤ cs.length := by
      rw [hcs, Nat.succ_mul]; omega
    have hrowlen : (cs.take N).length = N := by
      rw [List.length_take, Nat.min_eq_left hNle]
    have hdroplen : (cs.drop N).length = k * N := by
      rw [List.length_drop, hcs, Nat.succ_mul]; omega
    have huniTake : ∀ t ∈ cs.take N,
        t.pixels.length = M ∧ ∀ row ∈ t.pixels, row.length = M :=
      fun t ht => huni t (List.take_subset N cs ht)
    have huniDrop : ∀ t ∈ cs.drop N,
        t.pixels.length = M ∧ ∀ row ∈ t.pixels, row.length = M :=
      fun t ht => huni t (List.drop_subset N cs ht)
    have hne : cs.take N ≠ [] := by
      apply List.length_pos.mp; omega
    obtain ⟨r0, rowRest, hr0⟩ := List.exists_cons_of_ne_nil hne
    -- evaluate the first tile row
    have hblockMaps : ∀ g ∈ (cs.take N).map Tile.pixels, g.length = M := by
      intro g hg
      rcases List.mem_map.mp hg with ⟨t, ht, rfl⟩
      exact (huniTake t ht).1
    have hfirst : combineAux N [] (cs.take N) 0 =
        some (hcatG ((cs.take N).map Tile.pixels)) := by
      rw [hr0, combineAux, Nat.zero_div, Nat.zero_mod, Nat.mul_zero]
      have hr0mem : r0 ∈ cs.take N := by rw [hr0]; simp
      rw [placeTile_create r0.pixels [] 0 0 (by simp)
        (by
          intro row hrow
          have hlenrow := (huniTake r0 hr0mem).2 row hrow
          apply List.length_pos.mp
          omega)]
      rw [Option.some_bind, List.nil_append]
      simp only [Nat.zero_add]
      have hstart : r0.pixels = hcatG [r0.pixels] := rfl
      have hone : (1 : Nat) = ([r0.pixels] : List Grid).length := rfl
      rw [hstart, hone]
      rw [combineAux_block M N hM hN rowRest [r0.pixels] (by simp)
        (by
          intro g hg
          simp at hg
          rw [hg]
          exact (huniTake r0 hr0mem).1)
        (by
          intro t ht
          exact (huniTake t (by rw [hr0]; exact List.mem_cons_of_mem _ ht)).1)
        (by
          have : (r0 :: rowRest).length = N := by rw [← hr0, hrowlen]
          simp at this
          simp
          omega)]
      simp
    obtain ⟨hB1, hB2⟩ := hcatG_spec M ((cs.take N).map Tile.pixels)
      (by
        intro hmapnil
        exact hne (List.map_eq_nil_iff.mp hmapnil))
      hblockMaps
    -- evaluate the remaining tile rows, shifted below the first block
    obtain ⟨gr, hgr, hgr1, hgr2, hgr3⟩ := ih (cs.drop N) hdroplen huniDrop
    have hshift : combineAux N (hcatG ((cs.take N).map Tile.pixels))
        (cs.drop N) N = some (hcatG ((cs.take N).map Tile.pixels) ++ gr) := by
      have := combineAux_shift M (cs.drop N)
        (hcatG ((cs.take N).map Tile.pixels)) [] N 1 0 hN
        (by rw [hB1, Nat.mul_one])
        (fun t ht => (huniDrop t ht).1)
      rw [List.append_nil, Nat.one_mul, Nat.add_zero] at this
      rw [this, hgr]
      rfl
    have htotal : combineAux N [] cs 0 =
        some (hcatG ((cs.take N).map Tile.pixels) ++ gr) := by
      conv_lhs => rw [← List.take_append_drop N cs]
      rw [combineAux_append, hfirst, Option.some_bind, hrowlen,
        Nat.zero_add, hshift]
    -- row lengths of the first block
    have hBrow : ∀ j < M,
        ((hcatG ((cs.take N).map Tile.pixels)).getD j []).length = N * M := by
      intro j hj
      rw [hB2 j]
      rw [flatten_uniform_length M]
      · simp only [List.length_map, hrowlen]
      · intro x hx
        rcases List.mem_map.mp hx with ⟨g, hg, rfl⟩
        rcases List.mem_map.mp hg with ⟨t, ht, rfl⟩
        obtain ⟨htl, htr⟩ := huniTake t ht
        exact htr _ (getD_mem _ _ _ (by omega))
    refine ⟨hcatG ((cs.take N).map Tile.pixels) ++ gr, htotal, ?_, ?_, ?_⟩
    · rw [List.length_append, hB1, hgr1, Nat.succ_mul]; omega
    · intro row hrow
      rcases List.mem_append.mp hrow with h1 | h2
      · obtain ⟨j, hj, hj2⟩ := List.mem_iff_getElem.mp h1
        have : row = (hcatG ((cs.take N).map Tile.pixels)).getD j [] := by
          rw [List.getD_eq_getElem _ _ hj, hj2]
        rw [this]
        exact hBrow j (by rw [← hB1]; exact hj)
      · exact hgr2 row h2
    · intro q s r c hq hs hr hc
      cases q with
      | zero =>
        rw [Nat.zero_mul, Nat.zero_add, Nat.zero_mul, Nat.zero_add]
        unfold cellAt
        rw [List.getD_append _ _ _ _ (by rw [hB1]; omega)]
        rw [hB2 r]
        rw [flatten_getD_uniform M ('?' : Char)
          (((cs.take N).map Tile.pixels).map fun g => g.getD r []) s c
          (by
            intro x hx
            rcases List.mem_map.mp hx with ⟨g, hg, rfl⟩
            rcases List.mem_map.mp hg with ⟨t, ht, rfl⟩
            obtain ⟨htl, htr⟩ := huniTake t ht
            exact htr _ (getD_mem _ _ _ (by omega)))
          (by simp only [List.length_map, hrowlen]; omega)
          hc]
        rw [getD_map _ _ _ _ ([] : Grid)
          (by simp only [List.length_map, hrowlen]; omega)]
        rw [getD_map _ _ _ _ ({ id := 0, pixels := [] } : Tile)
          (by simp only [hrowlen]; omega)]
        rw [getD_take _ _ _ _ hs (by omega)]
      | succ q' =>
        unfold cellAt
        have hidx : (hcatG ((cs.take N).map Tile.pixels)).length ≤
            (q' + 1) * M + r := by
          rw [hB1, Nat.succ_mul]; omega
        rw [List.getD_append_right _ _ _ _ hidx]
        have hsub : (q' + 1) * M + r -
            (hcatG ((cs.take N).map Tile.pixels)).length = q' * M + r := by
          rw [hB1, Nat.succ_mul]; omega
        rw [hsub]
        have := hgr3 q' s r c (by omega) hs hr hc
        unfold cellAt at this
        rw [this]
        have hbound : N + (q' * N + s) < cs.length := by
          rw [hcs]
          have h1 : (q' + 1) * N ≤ k * N :=
            Nat.mul_le_mul_right N (by omega)
          rw [Nat.succ_mul] at h1
          rw [Nat.succ_mul]
          omega
        rw [getD_drop _ _ _ _ hbound]
        have harith : (q' + 1) * N + s = N + (q' * N + s) := by
          rw [Nat.succ_mul]; omega
        rw [harith]

/-- The pure content of a successful crop_borders. -/
def cropTile (t : Tile) : Tile :=
  { id := t.id,
    pixels := (t.pixels.dropLast.tail).map fun r => r.dropLast.tail }

/-- crop_borders applied tile-by-tile over an arrangement, as the part-2
driver does before calling combine; the first panic aborts. -/
def cropAll : List Tile → Option (List Tile)
  | [] => some []
  | t :: ts =>
    (t.cropBorders).bind fun c => (cropAll ts).map fun cs => c :: cs

/-- On square tiles of edge at least 2, cropAll succeeds and crops each
tile. -/
theorem cropAll_eq_some (L : Nat) (h2 : 2 ≤ L) :
    ∀ (ts : List Tile), (∀ t ∈ ts, squareOfSize L t) →
      cropAll ts = some (ts.map cropTile) := by
  intro ts
  induction ts with
  | nil => intro _; rfl
  | cons t ts ih =>
    intro huni
    rw [cropAll, cropBorders_eq_some t L (huni t (by simp)) h2,
      Option.some_bind, ih (fun x hx => huni x (List.mem_cons_of_mem _ hx))]
    rfl

/-- Cropping a square tile of edge L produces a square tile of edge L-2. -/
theorem cropTile_square (t : Tile) (L : Nat) (hs : squareOfSize L t)
    (h2 : 2 ≤ L) : squareOfSize (L - 2) (cropTile t) := by
  obtain ⟨hlen, hrows⟩ := hs
  constructor
  · simp only [cropTile, List.length_map, List.length_tail,
      List.length_dropLast, hlen]
    omega
  · intro row hrow
    rcases List.mem_map.mp hrow with ⟨r, hr, rfl⟩
    have hrmem : r ∈ t.pixels := mem_of_mem_dropLast_tail _ _ hr
    simp only [List.length_tail, List.length_dropLast, hrows r hrmem]
    omega

/-- A cropped cell is the corresponding interior cell of the original tile:
crop_borders removes exactly one row or column of pixels from each of the
four edges. -/
theorem cropTile_cell (t : Tile) (L : Nat) (hs : squareOfSize L t)
    (r c : Nat) (hr : r < L - 2) (hc : c < L - 2) :
    cellAt (cropTile t).pixels r c = cellAt t.pixels (r + 1) (c + 1) := by
  obtain ⟨hlen, hrows⟩ := hs
  have hL3 : 3 ≤ L := by omega
  unfold cellAt cropTile
  simp only
  have hrlen : r < (t.pixels.dropLast.tail).length := by
    simp only [List.length_tail, List.length_dropLast, hlen]; omega
  rw [getD_map _ _ _ _ ([] : List Char) hrlen]
  rw [getD_tail (t.pixels.dropLast) r ([] : List Char),
    getD_dropLast t.pixels (r + 1) ([] : List Char)
      (by omega : r + 1 + 1 < t.pixels.length)]
  have hinner : t.pixels.getD (r + 1) [] ∈ t.pixels :=
    getD_mem _ _ _ (by omega)
  have hinlen : (t.pixels.getD (r + 1) []).length = L := hrows _ hinner
  rw [getD_tail ((t.pixels.getD (r + 1) []).dropLast) c '?',
    getD_dropLast (t.pixels.getD (r + 1) []) (c + 1) '?'
      (by rw [hinlen]; omega : c + 1 + 1 < (t.pixels.getD (r + 1) []).length)]

/-- C6: on a complete N-by-N arrangement of square edge-L tiles (L at least
3), cropping removes exactly the one-pixel border of every tile, combine
succeeds, the composite is the N(L-2)-by-N(L-2) grid — exactly (N(L-2))^2
cells — and the cell at (q(L-2)+r, s(L-2)+c) is the interior cell (r+1, c+1)
of the arranged tile at row-major position qN+s. -/
theorem c6_combine_spec (ts : List Tile) (N L E : Nat) (hL : 3 ≤ L)
    (hlen : ts.length = N * N)
    (huni : ∀ t ∈ ts, squareOfSize L t) :
    ∃ (cs : List Tile) (g : Tile),
      cropAll ts = some cs ∧
      combine cs N E = some g ∧
      g.pixels.length = N * (L - 2) ∧
      (∀ row ∈ g.pixels, row.length = N * (L - 2)) ∧
      (∀ q s r c, q < N → s < N → r < L - 2 → c < L - 2 →
        cellAt g.pixels (q * (L - 2) + r) (s * (L - 2) + c) =
          cellAt (ts.getD (q * N + s) { id := 0, pixels := [] }).pixels
            (r + 1) (c + 1)) := by
  have hcrop := cropAll_eq_some L (by omega) ts huni
  cases N with
  | zero =>
    have hts : ts = [] := List.length_eq_zero.mp (by rw [hlen])
    subst hts
    refine ⟨[], { id := 0, pixels := [] }, rfl, rfl, by simp, by simp, ?_⟩
    intro q s r c hq _ _ _
    exact absurd hq (Nat.not_lt_zero q)
  | succ n =>
    have hM : 0 < L - 2 := by omega
    have hN : 0 < n + 1 := Nat.succ_pos n
    have hcs : (ts.map cropTile).length = (n + 1) * (n + 1) := by
      rw [List.length_map, hlen]
    have hcsuni : ∀ t ∈ ts.map cropTile,
        t.pixels.length = L - 2 ∧ ∀ row ∈ t.pixels, row.length = L - 2 := by
      intro x hx
      rcases List.mem_map.mp hx with ⟨t, ht, rfl⟩
      exact cropTile_square t L (huni t ht) (by omega)
    obtain ⟨g, hg, hg1, hg2, hg3⟩ :=
      combineAux_main (L - 2) (n + 1) hM hN (n + 1) (ts.map cropTile)
        hcs hcsuni
    refine ⟨ts.map cropTile, { id := 0, pixels := g }, hcrop, ?_, hg1, hg2, ?_⟩
    · rw [combine, hg]; rfl
    · intro q s r c hq hs hr hc
      rw [hg3 q s r c hq hs hr hc]
      have hqbound : q * (n + 1) + s < ts.length := by
        rw [hlen]
        have h1 : (q + 1) * (n + 1) ≤ (n + 1) * (n + 1) :=
          Nat.mul_le_mul_right (n + 1) (by omega)
        rw [Nat.succ_mul] at h1
        omega
      rw [getD_map _ _ _ _ ({ id := 0, pixels := [] } : Tile) hqbound]
      exact cropTile_cell (ts.getD (q * (n + 1) + s) _) L
        (huni _ (getD_mem _ _ _ hqbound)) r c hr hc

/-- A sample 3-by-3 tile with distinct cells. -/
def tile3 : Tile :=
  { id := 5, pixels := [['a', 'b', 'c'], ['d', 'e', 'f'], ['g', 'h', 'i']] }

/-- C6 witness: the 1-by-1 arrangement of one 3-by-3 tile. -/
theorem c6_witness :
    (3 ≤ 3) ∧ ([tile3].length = 1 * 1) ∧ (∀ t ∈ [tile3], squareOfSize 3 t) ∧
    (∃ (cs : List Tile) (g : Tile),
      cropAll [tile3] = some cs ∧
      combine cs 1 3 = some g ∧
      g.pixels.length = 1 * (3 - 2) ∧
      (∀ row ∈ g.pixels, row.length = 1 * (3 - 2)) ∧
      (∀ q s r c, q < 1 → s < 1 → r < 3 - 2 → c < 3 - 2 →
        cellAt g.pixels (q * (3 - 2) + r) (s * (3 - 2) + c) =
          cellAt ([tile3].getD (q * 1 + s) { id := 0, pixels := [] }).pixels
            (r + 1) (c + 1))) :=
  ⟨by omega, by decide, by decide,
   c6_combine_spec [tile3] 1 3 3 (by omega) (by decide) (by decide)⟩

/-- The reference Sea Monster pattern (OrientedTile::SEA_MONSTER). -/
def seaMonster : List (List Char) :=
  [("                  # ").toList,
   ("#    ##    ##    ###").toList,
   (" #  #  #  #  #  #   ").toList]

/-- The height of the scanning window (SEA_MONSTER.len()). -/
def windowHeight : Nat := seaMonster.length

/-- The width of the scanning window (SEA_MONSTER[0].len()). -/
def windowWidth : Nat := (seaMonster.getD 0 []).length

/-- One cell of the pattern. -/
def patAt (i j : Nat) : Char := (seaMonster.getD i []).getD j ' '

/-- The pattern coordinates visited by the two nested loops of
contains_sea_monster and highlight_seamonster, in loop order. -/
def monsterCells : List (Nat × Nat) :=
  (List.range seaMonster.length).flatMap fun i =>
    (List.range ((seaMonster.getD i []).length)).map fun j => (i, j)

/-- Overwrite one cell of a grid (image_row[c] = ch); out-of-range writes,
which would panic in Rust, leave the grid unchanged. -/
def setCell (g : Grid) (r c : Nat) (ch : Char) : Grid :=
  g.set r ((g.getD r []).set c ch)

/-- OrientedTile::contains_sea_monster: every pattern cell marked with a
foreground character must be foreground in the window; spaces are free. -/
def containsSeaMonster (px : Grid) (voff hoff : Nat) : Bool :=
  monsterCells.all fun ij =>
    (patAt ij.1 ij.2 != '#') || (cellAt px (ij.1 + voff) (ij.2 + hoff) == '#')

/-- The body of the highlight loops: overwrite the window cell when the
pattern cell is foreground, otherwise leave the grid alone. -/
def paintCell (voff hoff : Nat) (g : Grid) (ij : Nat × Nat) : Grid :=
  if patAt ij.1 ij.2 == '#' then
    setCell g (ij.1 + voff) (ij.2 + hoff) '0'
  else g

/-- OrientedTile::highlight_seamonster: overwrite every foreground pattern
cell of the window with the highlight character. -/
def highlightSeamonster (px : Grid) (voff hoff : Nat) : Grid :=
  monsterCells.foldl (paintCell voff hoff) px

/-- The anchor positions visited by highlight_seamonsters, in loop order:
i in 0..E-3 (exclusive) and j in 0..E-20 (exclusive). -/
def anchors (E : Nat) : List (Nat × Nat) :=
  (List.range (E - windowHeight)).flatMap fun i =>
    (List.range (E - windowWidth)).map fun j => (i, j)

/-- One anchor visit: test the current (mutated) pixels and, on a match,
count it and paint it. -/
def scanStep (st : Nat × Grid) (ij : Nat × Nat) : Nat × Grid :=
  if containsSeaMonster st.2 ij.1 ij.2 then
    (st.1 + 1, highlightSeamonster st.2 ij.1 ij.2)
  else st

/-- The full scan of highlight_seamonsters over one pixel grid. -/
def scanGrid (g : Grid) : Nat × Grid :=
  (anchors g.length).foldl scanStep (0, g)

/-- OrientedTile::highlight_seamonsters: scan this orientation's pixels and
return the match count and the highlighted tile. -/
def highlightSeamonsters (o : OrientedTile) : Nat × Tile :=
  let result := scanGrid o.pixelsFn
  (result.1, { id := o.tile.id, pixels := result.2 })

/-- A 23-by-23 composite whose only sea monster sits at anchor (20, 0), the
last vertical anchor at which the window still fits. -/
def missedComposite : Tile :=
  { id := 0,
    pixels := List.replicate 20 (List.replicate 23 '.') ++
      (seaMonster.map fun row =>
        (row.map fun ch => if ch == '#' then '#' else '.') ++
          List.replicate 3 '.') }

set_option maxRecDepth 100000 in
set_option maxHeartbeats 1000000 in
/-- C7: the scan misses the last row and column of valid anchors.  The
composite has edge 23, the window fits at every row up to 23-3 = 20, and a
sea monster sits exactly at anchor (20, 0) — contains_sea_monster confirms
it — yet highlight_seamonsters reports zero monsters because its loops run
over 0..E-H and 0..E-W exclusively, never testing row E-H or column E-W. -/
theorem c7_missed_anchor :
    (highlightSeamonsters (orientedOf missedComposite)).1 = 0 ∧
    containsSeaMonster missedComposite.pixels 20 0 = true ∧
    missedComposite.pixels.length - windowHeight = 20 := by
  refine ⟨?_, ?_, ?_⟩
  · decide
  · decide
  · decide

/-- setCell keeps the number of rows. -/
theorem setCell_length (g : Grid) (r c : Nat) (ch : Char) :
    (setCell g r c ch).length = g.length :=
  List.length_set ..

/-- setCell keeps every row length. -/
theorem setCell_rowlen (g : Grid) (r c : Nat) (ch : Char) (r2 : Nat) :
    ((setCell g r c ch).getD r2 []).length = (g.getD r2 []).length := by
  unfold setCell
  rw [getD_set]
  by_cases h : r = r2 ∧ r < g.length
  · obtain ⟨rfl, hlt⟩ := h
    rw [if_pos ⟨rfl, hlt⟩]
    exact List.length_set ..
  · rw [if_neg h]

/-- A cell after setCell is either the old cell or the written character. -/
theorem cellAt_setCell_cases (g : Grid) (r c : Nat) (ch : Char)
    (r2 c2 : Nat) :
    cellAt (setCell g r c ch) r2 c2 = cellAt g r2 c2 ∨
    cellAt (setCell g r c ch) r2 c2 = ch := by
  unfold cellAt setCell
  rw [getD_set]
  by_cases h : r = r2 ∧ r < g.length
  · obtain ⟨rfl, hlt⟩ := h
    rw [if_pos ⟨rfl, hlt⟩, getD_set]
    by_cases h2 : c = c2 ∧ c < (g.getD r []).length
    · rw [if_pos h2]; right; rfl
    · rw [if_neg h2]; left; rfl
  · rw [if_neg h]; left; rfl

/-- An in-range setCell does write the character. -/
theorem cellAt_setCell_write (g : Grid) (r c : Nat) (ch : Char)
    (hr : r < g.length) (hc : c < (g.getD r []).length) :
    cellAt (setCell g r c ch) r c = ch := by
  unfold cellAt setCell
  rw [getD_set, if_pos ⟨rfl, hr⟩, getD_set, if_pos ⟨rfl, hc⟩]

/-- paintCell keeps the number of rows. -/
theorem paintCell_length (v h : Nat) (g : Grid) (ij : Nat × Nat) :
    (paintCell v h g ij).length = g.length := by
  unfold paintCell
  by_cases hp : (patAt ij.1 ij.2 == '#') = true
  · rw [if_pos hp]; exact setCell_length ..
  · rw [if_neg hp]

/-- paintCell keeps every row length. -/
theorem paintCell_rowlen (v h : Nat) (g : Grid) (ij : Nat × Nat) (r : Nat) :
    ((paintCell v h g ij).getD r []).length = (g.getD r []).length := by
  unfold paintCell
  by_cases hp : (patAt ij.1 ij.2 == '#') = true
  · rw [if_pos hp]; exact setCell_rowlen ..
  · rw [if_neg hp]

/-- A cell after a whole paint fold is either the old cell or highlighted. -/
theorem paintFold_cases (v h : Nat) (l : List (Nat × Nat)) :
    ∀ (g : Grid) (r c : Nat),
      cellAt (l.foldl (paintCell v h) g) r c = cellAt g r c ∨
      cellAt (l.foldl (paintCell v h) g) r c = '0' := by
  induction l with
  | nil => intro g r c; left; rfl
  | cons ij l ih =>
    intro g r c
    rw [List.foldl_cons]
    rcases ih (paintCell v h g ij) r c with h1 | h1
    · rw [h1]
      unfold paintCell
      by_cases hp : (patAt ij.1 ij.2 == '#') = true
      · rw [if_pos hp]; exact cellAt_setCell_cases ..
      · rw [if_neg hp]; left; rfl
    · right; exact h1

/-- An already highlighted cell stays highlighted through a paint fold. -/
theorem paintFold_zero (v h : Nat) (l : List (Nat × Nat)) :
    ∀ (g : Grid) (r c : Nat), cellAt g r c = '0' →
      cellAt (l.foldl (paintCell v h) g) r c = '0' := by
  induction l with
  | nil => intro g r c hz; exact hz
  | cons ij l ih =>
    intro g r c hz
    rw [List.foldl_cons]
    apply ih
    unfold paintCell
    by_cases hp : (patAt ij.1 ij.2 == '#') = true
    · rw [if_pos hp]
      rcases cellAt_setCell_cases g (ij.1 + v) (ij.2 + h) '0' r c with h1 | h1
      · rw [h1]; exact hz
      · exact h1
    · rw [if_neg hp]; exact hz

/-- The paint fold keeps the number of rows. -/
theorem paintFold_length (v h : Nat) (l : List (Nat × Nat)) :
    ∀ (g : Grid), (l.foldl (paintCell v h) g).length = g.length := by
  induction l with
  | nil => intro g; rfl
  | cons ij l ih =>
    intro g
    rw [List.foldl_cons, ih, paintCell_length]

/-- The paint fold keeps every row length. -/
theorem paintFold_rowlen (v h : Nat) (l : List (Nat × Nat)) :
    ∀ (g : Grid) (r : Nat),
      ((l.foldl (paintCell v h) g).getD r []).length =
        (g.getD r []).length := by
  induction l with
  | nil => intro g r; rfl
  | cons ij l ih =>
    intro g r
    rw [List.foldl_cons, ih, paintCell_rowlen]

/-- A foreground pattern cell whose window position is in range ends up
highlighted after the paint fold visits it. -/
theorem paintFold_writes (v h : Nat) (l : List (Nat × Nat))
    (ij0 : Nat × Nat) (hmem : ij0 ∈ l) (hpat : patAt ij0.1 ij0.2 = '#') :
    ∀ (g : Grid), ij0.1 + v < g.length →
      ij0.2 + h < (g.getD (ij0.1 + v) []).length →
      cellAt (l.foldl (paintCell v h) g) (ij0.1 + v) (ij0.2 + h) = '0' := by
  obtain ⟨s, t2, rfl⟩ := List.append_of_mem hmem
  intro g hr hc
  rw [List.foldl_append, List.foldl_cons]
  apply paintFold_zero
  have hrm : ij0.1 + v < (s.foldl (paintCell v h) g).length := by
    rw [paintFold_length]; exact hr
  have hcm : ij0.2 + h <
      ((s.foldl (paintCell v h) g).getD (ij0.1 + v) []).length := by
    rw [paintFold_rowlen]; exact hc
  unfold paintCell
  rw [if_pos (by simp [hpat])]
  exact cellAt_setCell_write _ _ _ _ hrm hcm

attribute [irreducible] paintCell

/-- The scan fold keeps the number of rows. -/
theorem scanFold_length (l : List (Nat × Nat)) :
    ∀ (st : Nat × Grid), ((l.foldl scanStep st).2).length = st.2.length := by
  induction l with
  | nil => intro st; rfl
  | cons ij l ih =>
    intro st
    rw [List.foldl_cons, ih, scanStep]
    cases hcon : containsSeaMonster st.2 ij.1 ij.2 with
    | true => rw [if_pos rfl]; exact paintFold_length ..
    | false => rw [if_neg (by simp)]

/-- The scan fold keeps every row length. -/
theorem scanFold_rowlen (l : List (Nat × Nat)) :
    ∀ (st : Nat × Grid) (r : Nat),
      (((l.foldl scanStep st).2).getD r []).length =
        (st.2.getD r []).length := by
  induction l with
  | nil => intro st r; rfl
  | cons ij l ih =>
    intro st r
    rw [List.foldl_cons, ih, scanStep]
    cases hcon : containsSeaMonster st.2 ij.1 ij.2 with
    | true => rw [if_pos rfl]; exact paintFold_rowlen ..
    | false => rw [if_neg (by simp)]

/-- A cell that is foreground after the scan fold was foreground before:
the scan only ever writes the highlight character. -/
theorem scanFold_back_hash (l : List (Nat × Nat)) :
    ∀ (st : Nat × Grid) (r c : Nat),
      cellAt (l.foldl scanStep st).2 r c = '#' →
      cellAt st.2 r c = '#' := by
  induction l with
  | nil => intro st r c hF; exact hF
  | cons ij l ih =>
    intro st r c hF
    rw [List.foldl_cons] at hF
    have hmid := ih (scanStep st ij) r c hF
    rw [scanStep] at hmid
    cases hcon : containsSeaMonster st.2 ij.1 ij.2 with
    | true =>
      rw [hcon, if_pos rfl] at hmid
      rcases paintFold_cases ij.1 ij.2 monsterCells st.2 r c with h1 | h1
      · rw [highlightSeamonster] at hmid
        rw [h1] at hmid
        exact hmid
      · rw [highlightSeamonster] at hmid
        rw [h1] at hmid
        exact absurd hmid (by decide)
    | false =>
      rw [hcon, if_neg (by simp)] at hmid
      exact hmid

/-- An already highlighted cell stays highlighted through the scan fold. -/
theorem scanFold_zero (l : List (Nat × Nat)) :
    ∀ (st : Nat × Grid) (r c : Nat), cellAt st.2 r c = '0' →
      cellAt (l.foldl scanStep st).2 r c = '0' := by
  induction l with
  | nil => intro st r c hz; exact hz
  | cons ij l ih =>
    intro st r c hz
    rw [List.foldl_cons]
    apply ih
    rw [scanStep]
    cases hcon : containsSeaMonster st.2 ij.1 ij.2 with
    | true =>
      rw [if_pos rfl]
      show cellAt (highlightSeamonster st.2 ij.1 ij.2) r c = '0'
      rw [highlightSeamonster]
      exact paintFold_zero _ _ _ _ _ _ hz
    | false => rw [if_neg (by simp)]; exact hz

/-- The match test holds exactly when every foreground pattern cell sees a
foreground window cell. -/
theorem containsSeaMonster_iff (g : Grid) (v h : Nat) :
    containsSeaMonster g v h = true ↔
      ∀ ij ∈ monsterCells, patAt ij.1 ij.2 = '#' →
        cellAt g (ij.1 + v) (ij.2 + h) = '#' := by
  unfold containsSeaMonster
  rw [List.all_eq_true]
  constructor
  · intro H ij hij hpat
    have hh := H ij hij
    simp only [Bool.or_eq_true, bne_iff_ne, beq_iff_eq] at hh
    rcases hh with h1 | h1
    · exact absurd hpat h1
    · exact h1
  · intro H ij hij
    simp only [Bool.or_eq_true, bne_iff_ne, beq_iff_eq]
    by_cases hpat : patAt ij.1 ij.2 = '#'
    · right; exact H ij hij hpat
    · left; exact hpat

/-- Only in-range cells can read as foreground: out-of-range reads give the
sentinel. -/
theorem hash_inbounds (g : Grid) (r c : Nat) (h : cellAt g r c = '#') :
    r < g.length ∧ c < (g.getD r []).length := by
  unfold cellAt at h
  constructor
  · by_contra hlt
    rw [List.getD_eq_default g ([] : List Char) (by omega : g.length ≤ r)] at h
    rw [List.getD_eq_default ([] : List Char) '?'
      (by simp : ([] : List Char).length ≤ c)] at h
    exact absurd h (by decide)
  · by_contra hlt
    rw [List.getD_eq_default (g.getD r []) '?'
      (by omega : (g.getD r []).length ≤ c)] at h
    exact absurd h (by decide)

/-- After one full scan no window of the resulting grid matches the pattern
any more: every match was painted over, and a window that would match the
result would already have matched when it was visited. -/
theorem scan_no_rematch (g : Grid) :
    ∀ a ∈ anchors g.length,
      containsSeaMonster (scanGrid g).2 a.1 a.2 = false := by
  intro a hmem
  by_contra hne
  have hcon : containsSeaMonster (scanGrid g).2 a.1 a.2 = true := by
    revert hne
    cases containsSeaMonster (scanGrid g).2 a.1 a.2 <;> simp
  obtain ⟨s, t2, hsplit⟩ := List.append_of_mem hmem
  have hF : scanGrid g =
      t2.foldl scanStep (scanStep (s.foldl scanStep (0, g)) a) := by
    rw [scanGrid, hsplit, List.foldl_append, List.foldl_cons]
  have hpat : patAt 0 18 = '#' := by decide
  have hmem18 : ((0 : Nat), (18 : Nat)) ∈ monsterCells := by decide
  have h18 : cellAt (scanGrid g).2 (0 + a.1) (18 + a.2) = '#' :=
    (containsSeaMonster_iff _ _ _).mp hcon (0, 18) hmem18 hpat
  by_cases hm : containsSeaMonster (s.foldl scanStep (0, g)).2 a.1 a.2 = true
  · have hstep : scanStep (s.foldl scanStep (0, g)) a =
        ((s.foldl scanStep (0, g)).1 + 1,
          highlightSeamonster (s.foldl scanStep (0, g)).2 a.1 a.2) := by
      rw [scanStep, hm, if_pos rfl]
    have hmidhash :
        cellAt (s.foldl scanStep (0, g)).2 (0 + a.1) (18 + a.2) = '#' :=
      (containsSeaMonster_iff _ _ _).mp hm (0, 18) hmem18 hpat
    obtain ⟨hbr, hbc⟩ := hash_inbounds _ _ _ hmidhash
    have hzero : cellAt
        (highlightSeamonster (s.foldl scanStep (0, g)).2 a.1 a.2)
        (0 + a.1) (18 + a.2) = '0' := by
      rw [highlightSeamonster]
      exact paintFold_writes a.1 a.2 monsterCells (0, 18) hmem18 hpat _
        hbr hbc
    have hzF : cellAt (scanGrid g).2 (0 + a.1) (18 + a.2) = '0' := by
      rw [hF]
      apply scanFold_zero
      rw [hstep]
      exact hzero
    rw [h18] at hzF
    exact absurd hzF (by decide)
  · have hstep : scanStep (s.foldl scanStep (0, g)) a =
        s.foldl scanStep (0, g) := by
      rw [scanStep,
        (Bool.not_eq_true _).mp hm, if_neg (by simp)]
    apply hm
    rw [containsSeaMonster_iff]
    intro ij hij hpatij
    have hFcell : cellAt (scanGrid g).2 (ij.1 + a.1) (ij.2 + a.2) = '#' :=
      (containsSeaMonster_iff _ _ _).mp hcon ij hij hpatij
    have hback := scanFold_back_hash t2 (scanStep (s.foldl scanStep (0, g)) a)
      (ij.1 + a.1) (ij.2 + a.2) (by rw [← hF]; exact hFcell)
    rw [hstep] at hback
    exact hback

/-- A scan over anchors none of which match leaves the state unchanged. -/
theorem scanFold_no_match (l : List (Nat × Nat)) :
    ∀ (n : Nat) (g : Grid),
      (∀ ij ∈ l, containsSeaMonster g ij.1 ij.2 = false) →
      l.foldl scanStep (n, g) = (n, g) := by
  induction l with
  | nil => intro n g _; rfl
  | cons ij l ih =>
    intro n g hall
    rw [List.foldl_cons]
    have hstep : scanStep (n, g) ij = (n, g) := by
      rw [scanStep]
      rw [show containsSeaMonster (n, g).2 ij.1 ij.2 = false from
        hall ij (by simp)]
      rw [if_neg (by simp)]
    rw [hstep]
    exact ih n g (fun x hx => hall x (List.mem_cons_of_mem _ hx))

/-- On a square tile, the lazy pixel view of the untransformed orientation
is the tile's own grid. -/
theorem pixelsFn_orientedOf (t : Tile)
    (hsq : ∀ row ∈ t.pixels, row.length = t.pixels.length) :
    (orientedOf t).pixelsFn = t.pixels := by
  unfold OrientedTile.pixelsFn
  show (List.range t.pixels.length).map _ = t.pixels
  apply List.ext_getElem
  · simp
  · intro n h1 h2
    rw [List.getElem_map, List.getElem_range]
    apply List.ext_getElem
    · simp [hsq t.pixels[n] (List.getElem_mem h2)]
      rfl
    · intro m hm1 hm2
      rw [List.getElem_map, List.getElem_range]
      show (orientedOf t).itemAt n m = t.pixels[n][m]
      unfold OrientedTile.itemAt OrientedTile.translate orientedOf cellAt
      simp only [List.foldl_nil]
      rw [List.getD_eq_getElem _ _ h2, List.getD_eq_getElem _ _ hm2]

/-- C8: highlighting is idempotent.  Scanning the highlighted composite
again finds no match (every match was painted over, and any window matching
the output would already have matched when first visited), so the second
scan returns the identical highlighted grid, with identical roughness. -/
theorem c8_highlight_idempotent (t : Tile)
    (hE : 20 ≤ t.pixels.length)
    (hsq : ∀ row ∈ t.pixels, row.length = t.pixels.length) :
    highlightSeamonsters
        (orientedOf (highlightSeamonsters (orientedOf t)).2) =
      (0, (highlightSeamonsters (orientedOf t)).2) ∧
    ((highlightSeamonsters
        (orientedOf (highlightSeamonsters (orientedOf t)).2)).2).roughness =
      ((highlightSeamonsters (orientedOf t)).2).roughness := by
  have hpx : (orientedOf t).pixelsFn = t.pixels := pixelsFn_orientedOf t hsq
  have hfirst : highlightSeamonsters (orientedOf t) =
      ((scanGrid t.pixels).1,
        { id := t.id, pixels := (scanGrid t.pixels).2 }) := by
    rw [highlightSeamonsters]
    simp only [hpx]
    rfl
  have hFlen : ((scanGrid t.pixels).2).length = t.pixels.length := by
    rw [scanGrid]
    exact scanFold_length _ _
  have hFrow : ∀ row ∈ (scanGrid t.pixels).2,
      row.length = ((scanGrid t.pixels).2).length := by
    intro row hrow
    obtain ⟨j, hj, hj2⟩ := List.mem_iff_getElem.mp hrow
    have hrowD : row = ((scanGrid t.pixels).2).getD j [] := by
      rw [List.getD_eq_getElem _ _ hj, hj2]
    have hjlt : j < t.pixels.length := by rw [← hFlen]; exact hj
    rw [hrowD, hFlen]
    have hscan : (((scanGrid t.pixels).2).getD j []).length =
        (t.pixels.getD j []).length := by
      rw [scanGrid]
      exact scanFold_rowlen _ _ _
    rw [hscan]
    exact hsq _ (getD_mem _ _ _ hjlt)
  have hsecondpx : (orientedOf
      { id := t.id, pixels := (scanGrid t.pixels).2 } : OrientedTile).pixelsFn =
      (scanGrid t.pixels).2 :=
    pixelsFn_orientedOf _ hFrow
  have hrescan : scanGrid ((scanGrid t.pixels).2) =
      (0, (scanGrid t.pixels).2) := by
    rw [scanGrid, hFlen]
    exact scanFold_no_match _ 0 _ (scan_no_rematch t.pixels)
  have hsecond : highlightSeamonsters
      (orientedOf { id := t.id, pixels := (scanGrid t.pixels).2 }) =
      (0, { id := t.id, pixels := (scanGrid t.pixels).2 }) := by
    rw [highlightSeamonsters]
    simp only [hsecondpx, hrescan]
    rfl
  rw [hfirst]
  refine ⟨?_, ?_⟩
  · exact hsecond
  · rw [hsecond]

/-- An all-background 20-by-20 composite. -/
def calmComposite : Tile :=
  { id := 0, pixels := List.replicate 20 (List.replicate 20 '.') }

/-- C8 witness: the idempotence theorem instantiated on a concrete square
composite of edge 20. -/
theorem c8_witness :
    (20 ≤ calmComposite.pixels.length) ∧
    (∀ row ∈ calmComposite.pixels,
      row.length = calmComposite.pixels.length) ∧
    (highlightSeamonsters
        (orientedOf (highlightSeamonsters (orientedOf calmComposite)).2) =
      (0, (highlightSeamonsters (orientedOf calmComposite)).2) ∧
    ((highlightSeamonsters
        (orientedOf
          (highlightSeamonsters (orientedOf calmComposite)).2)).2).roughness =
      ((highlightSeamonsters (orientedOf calmComposite)).2).roughness) :=
  ⟨by decide, by decide,
   c8_highlight_idempotent calmComposite (by decide) (by decide)⟩
